import Mathlib

/-!
Verification of the car-kinematics and track-geometry core of the
Retro-game repository (src/car.py, src/track.py).

Car physics (`Car._apply_physics`) is exact rational arithmetic on the
speed/angle state, so it is embedded over `ℚ`.  Track geometry
(`Track._generate_track`, `Track._generate_boundaries`,
`Track.get_checkpoint_index`, `Track.is_on_start_line`) uses square roots
and trigonometric functions, so it is embedded over `ℝ`.
-/

namespace Car

/-- Control intent for one tick: the four independent booleans set by
`_handle_player_input` (accelerate, brake, steer left, steer right). -/
structure Controls where
  is_accelerating : Bool
  is_braking : Bool
  is_turning_left : Bool
  is_turning_right : Bool

/-- Car state mutated by `_apply_physics`: scalar speed, heading angle
(radians) and the per-tick acceleration attribute.  Position is updated by
`_update_position`, separately from the physics step. -/
structure CarState where
  speed : ℚ
  angle : ℚ
  acceleration : ℚ

/-- Tunable `self.max_speed = 10` from `Car.__init__`. -/
def max_speed : ℚ := 10

/-- Tunable `self.max_reverse_speed = -5` from `Car.__init__`. -/
def max_reverse_speed : ℚ := -5

/-- Tunable `self.acceleration_rate = 0.1` from `Car.__init__`. -/
def acceleration_rate : ℚ := 1/10

/-- Tunable `self.deceleration_rate = 0.05` from `Car.__init__`. -/
def deceleration_rate : ℚ := 1/20

/-- Tunable `self.steering_rate = 0.1` from `Car.__init__`. -/
def steering_rate : ℚ := 1/10

/-- Tunable `self.friction = 0.02` from `Car.__init__`. -/
def friction : ℚ := 1/50

/-- Embedding of `Car._apply_physics`: acceleration selection, speed
integration, friction with zero-crossing clamp, speed clamping to
[max_reverse_speed, max_speed], then steering (only when |speed| > 0.1). -/
def apply_physics (ctrl : Controls) (c : CarState) : CarState :=
  let acceleration : ℚ :=
    if ctrl.is_accelerating then acceleration_rate
    else if ctrl.is_braking then -deceleration_rate
    else 0
  let speed1 : ℚ := c.speed + acceleration
  let speed2 : ℚ :=
    if speed1 > 0 then
      let s := speed1 - friction
      if s < 0 then 0 else s
    else if speed1 < 0 then
      let s := speed1 + friction
      if s > 0 then 0 else s
    else speed1
  let speed3 : ℚ := max max_reverse_speed (min max_speed speed2)
  let angle1 : ℚ :=
    if |speed3| > 1/10 then
      let steering_factor := steering_rate * (speed3 / max_speed)
      let a1 := if ctrl.is_turning_left then c.angle - steering_factor else c.angle
      if ctrl.is_turning_right then a1 + steering_factor else a1
    else c.angle
  { speed := speed3, angle := angle1, acceleration := acceleration }

/-- Controls for a tick with accelerate set and brake unset (steering flags
arbitrary, they do not affect the speed). -/
def accel_controls (sl sr : Bool) : Controls :=
  { is_accelerating := true, is_braking := false,
    is_turning_left := sl, is_turning_right := sr }

/-- Controls for a tick with no control intent set at all. -/
def no_controls : Controls :=
  { is_accelerating := false, is_braking := false,
    is_turning_left := false, is_turning_right := false }

/-- Speed component of one `_apply_physics` step, as a function of the old
speed alone (the speed pipeline never reads the angle or the stored
acceleration). -/
def speed_step (ctrl : Controls) (s : ℚ) : ℚ :=
  (apply_physics ctrl { speed := s, angle := 0, acceleration := 0 }).speed

theorem apply_physics_speed (ctrl : Controls) (c : CarState) :
    (apply_physics ctrl c).speed = speed_step ctrl c.speed := rfl

theorem iterate_apply_physics_speed (ctrl : Controls) (c : CarState) :
    ∀ n : ℕ, ((apply_physics ctrl)^[n] c).speed = (speed_step ctrl)^[n] c.speed := by
  intro n
  induction n generalizing c with
  | zero => rfl
  | succ n ih =>
      rw [Function.iterate_succ_apply, Function.iterate_succ_apply, ih,
        apply_physics_speed]

theorem speed_step_accel (sl sr : Bool) (s : ℚ) (hs : 0 ≤ s) :
    speed_step (accel_controls sl sr) s = min max_speed (s + 2/25) := by
  simp only [speed_step, apply_physics, accel_controls, acceleration_rate,
    friction, max_speed, max_reverse_speed, if_true]
  have h1 : s + 1/10 > 0 := by linarith
  rw [if_pos h1, if_neg (by linarith : ¬(s + 1/10 - 1/50 < 0))]
  rw [max_eq_right (le_min (by norm_num) (by linarith))]
  norm_num
  ring_nf

theorem accel_iterate_closed_form (sl sr : Bool) :
    ∀ n : ℕ, (speed_step (accel_controls sl sr))^[n] 0 = min max_speed ((2/25) * n) := by
  intro n
  induction n with
  | zero => simp [max_speed]
  | succ n ih =>
      rw [Function.iterate_succ_apply', ih,
        speed_step_accel sl sr _ (le_min (by norm_num [max_speed]) (by positivity))]
      rcases le_total ((2:ℚ)/25 * n) max_speed with h | h
      · rw [min_eq_right h]
        push_cast
        ring_nf
      · rw [min_eq_left h, min_eq_left (by norm_num [max_speed]),
          min_eq_left (by push_cast; linarith)]

end Car

/-- C1: after one `_apply_physics` update the car speed always lies within
[max_reverse_speed, max_speed] = [-5, 10], for every state and every
control intent; hence the bound is an invariant preserved by every update. -/
theorem speed_bounds_invariant (ctrl : Car.Controls) (c : Car.CarState) :
    Car.max_reverse_speed ≤ (Car.apply_physics ctrl c).speed ∧
    (Car.apply_physics ctrl c).speed ≤ Car.max_speed := by
  unfold Car.apply_physics
  refine ⟨le_max_left _ _, ?_⟩
  simp only [Car.max_reverse_speed, Car.max_speed]
  exact max_le (by norm_num) (min_le_left _ _)

/-- C2: starting from rest, under repeated ticks with accelerate set and
brake unset the speed strictly increases on every tick while it is below
max_speed, stays exactly at max_speed once it equals it, and equals
max_speed after 125 ticks. -/
theorem accelerate_from_rest (sl sr : Bool) (c : Car.CarState) (h0 : c.speed = 0)
    (n : ℕ) :
    (((Car.apply_physics (Car.accel_controls sl sr))^[n] c).speed < Car.max_speed →
      ((Car.apply_physics (Car.accel_controls sl sr))^[n] c).speed <
        ((Car.apply_physics (Car.accel_controls sl sr))^[n+1] c).speed) ∧
    (((Car.apply_physics (Car.accel_controls sl sr))^[n] c).speed = Car.max_speed →
      ((Car.apply_physics (Car.accel_controls sl sr))^[n+1] c).speed = Car.max_speed) ∧
    ((Car.apply_physics (Car.accel_controls sl sr))^[125] c).speed = Car.max_speed := by
  have key : ∀ k : ℕ, ((Car.apply_physics (Car.accel_controls sl sr))^[k] c).speed =
      min Car.max_speed ((2/25) * k) := by
    intro k
    rw [Car.iterate_apply_physics_speed, h0, Car.accel_iterate_closed_form]
  refine ⟨?_, ?_, ?_⟩
  · intro hlt
    rw [key n] at hlt ⊢
    rw [key (n+1)]
    have hn : min Car.max_speed ((2:ℚ)/25 * n) = (2:ℚ)/25 * n :=
      min_eq_right (le_of_lt (by simpa using lt_of_eq_of_lt (key n).symm (lt_of_eq_of_lt (key n) hlt)))
    rw [hn]
    refine lt_min ?_ (by push_cast; linarith)
    rw [hn] at hlt
    exact hlt
  · intro heq
    rw [key n] at heq
    rw [key (n+1)]
    have h10 : Car.max_speed ≤ (2:ℚ)/25 * n := min_eq_left_iff.mp heq
    exact min_eq_left (by push_cast; linarith)
  · rw [key 125]
    norm_num [Car.max_speed]

/-- Witness for C2 at the source initial state (speed 0), n = 0: the first
accelerating tick strictly raises the speed, and after 125 ticks the speed
is exactly max_speed. -/
theorem accelerate_from_rest_witness :
    ((Car.apply_physics (Car.accel_controls false false))^[0]
        { speed := 0, angle := 0, acceleration := 0 }).speed <
      ((Car.apply_physics (Car.accel_controls false false))^[1]
        { speed := 0, angle := 0, acceleration := 0 }).speed ∧
    ((Car.apply_physics (Car.accel_controls false false))^[125]
        { speed := 0, angle := 0, acceleration := 0 }).speed = Car.max_speed := by
  have h := accelerate_from_rest false false
    { speed := 0, angle := 0, acceleration := 0 } rfl 0
  exact ⟨h.1 (by norm_num [Car.max_speed]), h.2.2⟩

/-- C3: with no control intent and current speed in (0, max_speed], one
update subtracts exactly the friction magnitude, clamping to 0 when the
subtraction would cross zero, and the resulting speed is never negative. -/
theorem friction_decay (c : Car.CarState) (h1 : 0 < c.speed)
    (h2 : c.speed ≤ Car.max_speed) :
    (Car.apply_physics Car.no_controls c).speed =
      (if c.speed - Car.friction < 0 then 0 else c.speed - Car.friction) ∧
    0 ≤ (Car.apply_physics Car.no_controls c).speed := by
  have hs : (Car.apply_physics Car.no_controls c).speed =
      max Car.max_reverse_speed (min Car.max_speed
        (if c.speed + 0 > 0 then
          (if c.speed + 0 - Car.friction < 0 then 0 else c.speed + 0 - Car.friction)
         else if c.speed + 0 < 0 then
          (if c.speed + 0 + Car.friction > 0 then 0 else c.speed + 0 + Car.friction)
         else c.speed + 0)) := rfl
  simp only [add_zero] at hs
  rw [if_pos h1] at hs
  rw [Car.max_speed] at h2
  rw [hs, Car.friction, Car.max_speed, Car.max_reverse_speed] at *
  constructor
  · split_ifs with h3
    · rw [min_eq_right (by norm_num), max_eq_right (by norm_num)]
    · rw [min_eq_right (by linarith), max_eq_right (by linarith)]
  · refine le_max_of_le_right (le_min (by norm_num) ?_)
    split_ifs with h3
    · norm_num
    · linarith

/-- Witness for C3 at speed 5: friction takes one update from 5 to 4.98,
which stays nonnegative. -/
theorem friction_decay_witness :
    0 < ((5:ℚ)) ∧ (5:ℚ) ≤ Car.max_speed ∧
    ((Car.apply_physics Car.no_controls { speed := 5, angle := 0, acceleration := 0 }).speed =
      (if (5:ℚ) - Car.friction < 0 then 0 else 5 - Car.friction) ∧
    0 ≤ (Car.apply_physics Car.no_controls { speed := 5, angle := 0, acceleration := 0 }).speed) :=
  ⟨by norm_num, by norm_num [Car.max_speed],
    friction_decay { speed := 5, angle := 0, acceleration := 0 }
      (by norm_num) (by norm_num [Car.max_speed])⟩

/-- C4: whenever the speed resulting from the tick (after acceleration,
friction and clamping) has absolute value at most 0.1, the heading angle is
unchanged by the update, whatever the steering flags are. -/
theorem steering_dead_zone (ctrl : Car.Controls) (c : Car.CarState)
    (h : |(Car.apply_physics ctrl c).speed| ≤ 1/10) :
    (Car.apply_physics ctrl c).angle = c.angle := by
  simp only [Car.apply_physics] at h ⊢
  rw [if_neg (not_lt.mpr h)]

/-- Witness for C4: a car at rest with both steering flags held stays at
speed 0 (within the dead zone) and its angle is unchanged. -/
theorem steering_dead_zone_witness :
    |(Car.apply_physics
        { is_accelerating := false, is_braking := false,
          is_turning_left := true, is_turning_right := true }
        { speed := 0, angle := 0, acceleration := 0 }).speed| ≤ 1/10 ∧
    (Car.apply_physics
        { is_accelerating := false, is_braking := false,
          is_turning_left := true, is_turning_right := true }
        { speed := 0, angle := 0, acceleration := 0 }).angle =
      ({ speed := 0, angle := 0, acceleration := 0 } : Car.CarState).angle := by
  have h : |(Car.apply_physics
      { is_accelerating := false, is_braking := false,
        is_turning_left := true, is_turning_right := true }
      { speed := 0, angle := 0, acceleration := 0 }).speed| ≤ 1/10 := by
    norm_num [Car.apply_physics, Car.max_speed, Car.max_reverse_speed, Car.friction]
  exact ⟨h, steering_dead_zone _ _ h⟩

/-- C10: from rest, one update with brake set and accelerate unset yields
speed exactly -(deceleration_rate - friction) = -0.03, a strictly negative
speed: braking at standstill puts the car into reverse. -/
theorem brake_at_rest (sl sr : Bool) (c : Car.CarState) (h : c.speed = 0) :
    (Car.apply_physics
        { is_accelerating := false, is_braking := true,
          is_turning_left := sl, is_turning_right := sr } c).speed =
      -(Car.deceleration_rate - Car.friction) ∧
    (Car.apply_physics
        { is_accelerating := false, is_braking := true,
          is_turning_left := sl, is_turning_right := sr } c).speed < 0 := by
  simp only [Car.apply_physics, Car.deceleration_rate, Car.friction,
    Car.max_speed, Car.max_reverse_speed, h]
  norm_num

/-- Witness for C10 at the source initial state: the post-update speed is
-3/100 < 0. -/
theorem brake_at_rest_witness :
    (Car.apply_physics
        { is_accelerating := false, is_braking := true,
          is_turning_left := false, is_turning_right := false }
        { speed := 0, angle := 0, acceleration := 0 }).speed =
      -(Car.deceleration_rate - Car.friction) ∧
    (Car.apply_physics
        { is_accelerating := false, is_braking := true,
          is_turning_left := false, is_turning_right := false }
        { speed := 0, angle := 0, acceleration := 0 }).speed < 0 :=
  brake_at_rest false false { speed := 0, angle := 0, acceleration := 0 } rfl

namespace Track

/-- Centerline of the oval from `Track._generate_track`: 20 points around
an oval whose center uses Python floor division (`width // 2`,
`height // 2`) and whose axes are `width * 0.7` and `height * 0.7`; point
i is at angle 2*pi*i/20. -/
noncomputable def track_point (w h : ℤ) (i : ℕ) : ℝ × ℝ :=
  (((Int.fdiv w 2 : ℤ) : ℝ) + ((w : ℝ) * 0.7 / 2) * Real.cos (2 * Real.pi * i / 20),
   ((Int.fdiv h 2 : ℤ) : ℝ) + ((h : ℝ) * 0.7 / 2) * Real.sin (2 * Real.pi * i / 20))

/-- List of the 20 centerline points, in index order. -/
noncomputable def track_points (w h : ℤ) : List (ℝ × ℝ) :=
  (List.range 20).map (track_point w h)

end Track

/-- C5 (amended): centerline generation yields exactly 20 points; point i
has angle 2*pi*i/20 and coordinates centered at the floor divisions
(width // 2, height // 2) with semi-axes 0.35*width and 0.35*height. -/
theorem track_points_spec (w h : ℤ) :
    (Track.track_points w h).length = 20 ∧
    ∀ i : ℕ, i < 20 →
      (Track.track_points w h)[i]? =
        some (((Int.fdiv w 2 : ℤ) : ℝ) + 0.35 * (w : ℝ) * Real.cos (2 * Real.pi * i / 20),
              ((Int.fdiv h 2 : ℤ) : ℝ) + 0.35 * (h : ℝ) * Real.sin (2 * Real.pi * i / 20)) := by
  constructor
  · simp only [Track.track_points, List.length_map, List.length_range]
  · intro i hi
    simp only [Track.track_points, List.getElem?_map, List.getElem?_range, hi, if_pos, if_true,
      Option.map_some', Track.track_point]
    rw [Option.some_inj, Prod.mk.injEq]
    constructor <;> ring

/-- Witness for C5's amended statement at the source dimensions 800x600,
point 0. -/
theorem track_points_spec_witness :
    (Track.track_points 800 600).length = 20 ∧
    (Track.track_points 800 600)[0]? =
      some (((Int.fdiv 800 2 : ℤ) : ℝ) + 0.35 * ((800 : ℤ) : ℝ) * Real.cos (2 * Real.pi * (0 : ℕ) / 20),
            ((Int.fdiv 600 2 : ℤ) : ℝ) + 0.35 * ((600 : ℤ) : ℝ) * Real.sin (2 * Real.pi * (0 : ℕ) / 20)) :=
  ⟨(track_points_spec 800 600).1, (track_points_spec 800 600).2 0 (by norm_num)⟩

/-- Counterexample to C5 as stated: at width 801 (odd) the code centers at
width // 2 = 400, not width/2 = 400.5, so point 0 differs from the
claimed coordinates. -/
theorem track_points_counterexample :
    (Track.track_points 801 600)[0]? ≠
      some ((801 : ℝ) / 2 + 0.35 * (801 : ℝ) * Real.cos (2 * Real.pi * (0 : ℕ) / 20),
            (600 : ℝ) / 2 + 0.35 * (600 : ℝ) * Real.sin (2 * Real.pi * (0 : ℕ) / 20)) := by
  have hfd : Int.fdiv 801 2 = 400 := by decide
  have h0 : (2 : ℝ) * Real.pi * (0 : ℕ) / 20 = 0 := by norm_num
  simp only [Track.track_points, List.getElem?_map, List.getElem?_range, Nat.zero_lt_succ,
    if_true, Option.map_some', Track.track_point, h0, Real.cos_zero, Real.sin_zero, hfd]
  intro hcontra
  rw [Option.some_inj, Prod.mk.injEq] at hcontra
  have hx := hcontra.1
  norm_num at hx

namespace Track

/-- Successor centerline point `track_points[(i + 1) % len(track_points)]`
used by `_generate_boundaries`. -/
noncomputable def next_point (pts : List (ℝ × ℝ)) (i : Fin pts.length) : ℝ × ℝ :=
  pts.get ⟨((i : ℕ) + 1) % pts.length, Nat.mod_lt _ i.pos⟩

/-- Length of the edge from point i to the next point, as computed in
`_generate_boundaries` (`math.sqrt(dx*dx + dy*dy)`). -/
noncomputable def edge_length (pts : List (ℝ × ℝ)) (i : Fin pts.length) : ℝ :=
  Real.sqrt (((next_point pts i).1 - (pts.get i).1) * ((next_point pts i).1 - (pts.get i).1) +
    ((next_point pts i).2 - (pts.get i).2) * ((next_point pts i).2 - (pts.get i).2))

open Classical in
/-- Body of the `_generate_boundaries` loop at index i: normalizes the
edge direction only when its length is positive, rotates it by 90 degrees
to (-dy, dx), and offsets the current point by plus/minus half the track
width, returning the (inner, outer) pair appended at index i. -/
noncomputable def boundary_pair (pts : List (ℝ × ℝ)) (tw : ℝ) (i : Fin pts.length) :
    (ℝ × ℝ) × (ℝ × ℝ) :=
  let current := pts.get i
  let np := next_point pts i
  let dx := np.1 - current.1
  let dy := np.2 - current.2
  let len := edge_length pts i
  let dxn := if 0 < len then dx / len else dx
  let dyn := if 0 < len then dy / len else dy
  let perpendicular_x := -dyn
  let perpendicular_y := dxn
  let half_width := tw / 2
  ((current.1 - perpendicular_x * half_width, current.2 - perpendicular_y * half_width),
   (current.1 + perpendicular_x * half_width, current.2 + perpendicular_y * half_width))

/-- Inner boundary list built by `_generate_boundaries`. -/
noncomputable def inner_boundary (pts : List (ℝ × ℝ)) (tw : ℝ) : List (ℝ × ℝ) :=
  List.ofFn (fun i : Fin pts.length => (boundary_pair pts tw i).1)

/-- Outer boundary list built by `_generate_boundaries`. -/
noncomputable def outer_boundary (pts : List (ℝ × ℝ)) (tw : ℝ) : List (ℝ × ℝ) :=
  List.ofFn (fun i : Fin pts.length => (boundary_pair pts tw i).2)

/-- Perpendicular direction as worded in the specification: the 90-degree
rotation (-dy, dx) of the normalized edge direction at index i. -/
noncomputable def spec_perpendicular (pts : List (ℝ × ℝ)) (i : Fin pts.length) : ℝ × ℝ :=
  (-(((next_point pts i).2 - (pts.get i).2) / edge_length pts i),
   ((next_point pts i).1 - (pts.get i).1) / edge_length pts i)

/-- Euclidean distance between two points, written as in
`Track.get_checkpoint_index` (`math.sqrt(dx*dx + dy*dy)`). -/
noncomputable def point_distance (p q : ℝ × ℝ) : ℝ :=
  Real.sqrt ((p.1 - q.1) * (p.1 - q.1) + (p.2 - q.2) * (p.2 - q.2))

end Track

/-- C6: at every index whose edge has positive length, the outer and inner
boundary points are the centerline point offset by plus/minus the rotated
normalized edge direction times trackWidth/2; the outer and inner lists
have the same length as the centerline; and the Euclidean distance between
outer[i] and inner[i] is exactly the track width. -/
theorem boundaries_offset_correct (pts : List (ℝ × ℝ)) (tw : ℝ) (i : Fin pts.length)
    (htw : 0 ≤ tw) (hlen : 0 < Track.edge_length pts i) :
    (Track.outer_boundary pts tw).length = pts.length ∧
    (Track.inner_boundary pts tw).length = pts.length ∧
    (Track.outer_boundary pts tw)[(i : ℕ)]? =
      some ((pts.get i).1 + (Track.spec_perpendicular pts i).1 * (tw / 2),
            (pts.get i).2 + (Track.spec_perpendicular pts i).2 * (tw / 2)) ∧
    (Track.inner_boundary pts tw)[(i : ℕ)]? =
      some ((pts.get i).1 - (Track.spec_perpendicular pts i).1 * (tw / 2),
            (pts.get i).2 - (Track.spec_perpendicular pts i).2 * (tw / 2)) ∧
    Track.point_distance (Track.boundary_pair pts tw i).2 (Track.boundary_pair pts tw i).1 = tw := by
  have hb : Track.boundary_pair pts tw i =
      (((pts.get i).1 - (Track.spec_perpendicular pts i).1 * (tw / 2),
        (pts.get i).2 - (Track.spec_perpendicular pts i).2 * (tw / 2)),
       ((pts.get i).1 + (Track.spec_perpendicular pts i).1 * (tw / 2),
        (pts.get i).2 + (Track.spec_perpendicular pts i).2 * (tw / 2))) := by
    simp only [Track.boundary_pair, if_pos hlen, Track.spec_perpendicular]
  refine ⟨by simp [Track.outer_boundary], by simp [Track.inner_boundary], ?_, ?_, ?_⟩
  · rw [List.getElem?_eq_getElem (by simp [Track.outer_boundary])]
    simp only [Track.outer_boundary, List.getElem_ofFn, Fin.eta, hb]
  · rw [List.getElem?_eq_getElem (by simp [Track.inner_boundary])]
    simp only [Track.inner_boundary, List.getElem_ofFn, Fin.eta, hb]
  · rw [hb]
    have hL2 : Track.edge_length pts i * Track.edge_length pts i =
        ((Track.next_point pts i).1 - (pts.get i).1) *
          ((Track.next_point pts i).1 - (pts.get i).1) +
        ((Track.next_point pts i).2 - (pts.get i).2) *
          ((Track.next_point pts i).2 - (pts.get i).2) := by
      rw [Track.edge_length]
      exact Real.mul_self_sqrt (add_nonneg (mul_self_nonneg _) (mul_self_nonneg _))
    have hLne : Track.edge_length pts i ≠ 0 := ne_of_gt hlen
    set c := pts.get i with hc
    set dx := (Track.next_point pts i).1 - c.1 with hdx
    set dy := (Track.next_point pts i).2 - c.2 with hdy
    set L := Track.edge_length pts i with hL
    simp only [Track.point_distance, Track.spec_perpendicular, ← hdx, ← hdy, ← hL]
    have hinside :
        (c.1 + -(dy / L) * (tw / 2) - (c.1 - -(dy / L) * (tw / 2))) *
          (c.1 + -(dy / L) * (tw / 2) - (c.1 - -(dy / L) * (tw / 2))) +
        (c.2 + dx / L * (tw / 2) - (c.2 - dx / L * (tw / 2))) *
          (c.2 + dx / L * (tw / 2) - (c.2 - dx / L * (tw / 2))) =
        tw ^ 2 * (dx * dx + dy * dy) / (L * L) := by ring
    rw [hinside, ← hL2, mul_div_assoc, div_self (mul_ne_zero hLne hLne), mul_one,
      Real.sqrt_sq htw]

/-- C7: at every index whose edge has length exactly zero, boundary
generation degenerates: both the outer and the inner boundary point equal
the centerline point itself (and no exception can arise, the embedding
being total). -/
theorem degenerate_edge_boundary (pts : List (ℝ × ℝ)) (tw : ℝ) (i : Fin pts.length)
    (hlen : Track.edge_length pts i = 0) :
    (Track.outer_boundary pts tw)[(i : ℕ)]? = some (pts.get i) ∧
    (Track.inner_boundary pts tw)[(i : ℕ)]? = some (pts.get i) := by
  have harg : ((Track.next_point pts i).1 - (pts.get i).1) *
        ((Track.next_point pts i).1 - (pts.get i).1) +
      ((Track.next_point pts i).2 - (pts.get i).2) *
        ((Track.next_point pts i).2 - (pts.get i).2) ≤ 0 := by
    rw [Track.edge_length] at hlen
    exact Real.sqrt_eq_zero'.mp hlen
  have hdx : (Track.next_point pts i).1 - (pts.get i).1 = 0 := by
    nlinarith [mul_self_nonneg ((Track.next_point pts i).1 - (pts.get i).1),
      mul_self_nonneg ((Track.next_point pts i).2 - (pts.get i).2)]
  have hdy : (Track.next_point pts i).2 - (pts.get i).2 = 0 := by
    nlinarith [mul_self_nonneg ((Track.next_point pts i).1 - (pts.get i).1),
      mul_self_nonneg ((Track.next_point pts i).2 - (pts.get i).2)]
  have hb : Track.boundary_pair pts tw i = (pts.get i, pts.get i) := by
    simp only [Track.boundary_pair, if_neg (not_lt.mpr (le_of_eq hlen)), hdx, hdy]
    norm_num
  constructor
  · rw [List.getElem?_eq_getElem (by simp [Track.outer_boundary])]
    simp only [Track.outer_boundary, List.getElem_ofFn, Fin.eta, hb]
  · rw [List.getElem?_eq_getElem (by simp [Track.inner_boundary])]
    simp only [Track.inner_boundary, List.getElem_ofFn, Fin.eta, hb]



/-- Witness for C6 on the two-point centerline [(0,0), (1,0)] with track
width 100 at index 0, whose edge has length 1. -/
theorem boundaries_offset_witness :
    (0:ℝ) ≤ 100 ∧
    0 < Track.edge_length [((0:ℝ), (0:ℝ)), ((1:ℝ), (0:ℝ))] ⟨0, by simp⟩ ∧
    ((Track.outer_boundary [((0:ℝ), (0:ℝ)), ((1:ℝ), (0:ℝ))] 100).length =
        ([((0:ℝ), (0:ℝ)), ((1:ℝ), (0:ℝ))] : List (ℝ × ℝ)).length ∧
      (Track.inner_boundary [((0:ℝ), (0:ℝ)), ((1:ℝ), (0:ℝ))] 100).length =
        ([((0:ℝ), (0:ℝ)), ((1:ℝ), (0:ℝ))] : List (ℝ × ℝ)).length ∧
      (Track.outer_boundary [((0:ℝ), (0:ℝ)), ((1:ℝ), (0:ℝ))] 100)[((⟨0, by simp⟩ : Fin ([((0:ℝ), (0:ℝ)), ((1:ℝ), (0:ℝ))] : List (ℝ × ℝ)).length) : ℕ)]? =
        some ((([((0:ℝ), (0:ℝ)), ((1:ℝ), (0:ℝ))] : List (ℝ × ℝ)).get ⟨0, by simp⟩).1 +
                (Track.spec_perpendicular [((0:ℝ), (0:ℝ)), ((1:ℝ), (0:ℝ))] ⟨0, by simp⟩).1 * (100 / 2),
              (([((0:ℝ), (0:ℝ)), ((1:ℝ), (0:ℝ))] : List (ℝ × ℝ)).get ⟨0, by simp⟩).2 +
                (Track.spec_perpendicular [((0:ℝ), (0:ℝ)), ((1:ℝ), (0:ℝ))] ⟨0, by simp⟩).2 * (100 / 2)) ∧
      (Track.inner_boundary [((0:ℝ), (0:ℝ)), ((1:ℝ), (0:ℝ))] 100)[((⟨0, by simp⟩ : Fin ([((0:ℝ), (0:ℝ)), ((1:ℝ), (0:ℝ))] : List (ℝ × ℝ)).length) : ℕ)]? =
        some ((([((0:ℝ), (0:ℝ)), ((1:ℝ), (0:ℝ))] : List (ℝ × ℝ)).get ⟨0, by simp⟩).1 -
                (Track.spec_perpendicular [((0:ℝ), (0:ℝ)), ((1:ℝ), (0:ℝ))] ⟨0, by simp⟩).1 * (100 / 2),
              (([((0:ℝ), (0:ℝ)), ((1:ℝ), (0:ℝ))] : List (ℝ × ℝ)).get ⟨0, by simp⟩).2 -
                (Track.spec_perpendicular [((0:ℝ), (0:ℝ)), ((1:ℝ), (0:ℝ))] ⟨0, by simp⟩).2 * (100 / 2)) ∧
      Track.point_distance
        (Track.boundary_pair [((0:ℝ), (0:ℝ)), ((1:ℝ), (0:ℝ))] 100 ⟨0, by simp⟩).2
        (Track.boundary_pair [((0:ℝ), (0:ℝ)), ((1:ℝ), (0:ℝ))] 100 ⟨0, by simp⟩).1 = 100) := by
  have hlen : 0 < Track.edge_length [((0:ℝ), (0:ℝ)), ((1:ℝ), (0:ℝ))] ⟨0, by simp⟩ := by
    norm_num [Track.edge_length, Track.next_point, Real.sqrt_one]
  exact ⟨by norm_num, hlen, boundaries_offset_correct _ 100 _ (by norm_num) hlen⟩

/-- Witness for C7 on the degenerate two-point centerline [(2,3), (2,3)]
with track width 100 at index 0, whose edge has length 0. -/
theorem degenerate_edge_witness :
    Track.edge_length [((2:ℝ), (3:ℝ)), ((2:ℝ), (3:ℝ))] ⟨0, by simp⟩ = 0 ∧
    ((Track.outer_boundary [((2:ℝ), (3:ℝ)), ((2:ℝ), (3:ℝ))] 100)[((⟨0, by simp⟩ : Fin ([((2:ℝ), (3:ℝ)), ((2:ℝ), (3:ℝ))] : List (ℝ × ℝ)).length) : ℕ)]? =
        some (([((2:ℝ), (3:ℝ)), ((2:ℝ), (3:ℝ))] : List (ℝ × ℝ)).get ⟨0, by simp⟩) ∧
      (Track.inner_boundary [((2:ℝ), (3:ℝ)), ((2:ℝ), (3:ℝ))] 100)[((⟨0, by simp⟩ : Fin ([((2:ℝ), (3:ℝ)), ((2:ℝ), (3:ℝ))] : List (ℝ × ℝ)).length) : ℕ)]? =
        some (([((2:ℝ), (3:ℝ)), ((2:ℝ), (3:ℝ))] : List (ℝ × ℝ)).get ⟨0, by simp⟩)) := by
  have hlen : Track.edge_length [((2:ℝ), (3:ℝ)), ((2:ℝ), (3:ℝ))] ⟨0, by simp⟩ = 0 := by
    norm_num [Track.edge_length, Track.next_point, Real.sqrt_zero]
  exact ⟨hlen, degenerate_edge_boundary _ 100 _ hlen⟩

namespace Track

open Classical in
/-- Embedding of `Track.is_on_start_line`: point-to-segment proximity test
against the stored start line (an optional pair of points), with the
degenerate-segment fallback and the clamped projection, compared
inclusively against the threshold. -/
noncomputable def is_on_start_line (start_line : Option ((ℝ × ℝ) × (ℝ × ℝ)))
    (position : ℝ × ℝ) (threshold : ℝ) : Prop :=
  match start_line with
  | none => False
  | some (p1, p2) =>
      let x := position.1
      let y := position.2
      let x1 := p1.1
      let y1 := p1.2
      let x2 := p2.1
      let y2 := p2.2
      let l2 := (x2 - x1) ^ 2 + (y2 - y1) ^ 2
      if l2 = 0 then Real.sqrt ((x - x1) ^ 2 + (y - y1) ^ 2) ≤ threshold
      else
        let t := max 0 (min 1 (((x - x1) * (x2 - x1) + (y - y1) * (y2 - y1)) / l2))
        let px := x1 + t * (x2 - x1)
        let py := y1 + t * (y2 - y1)
        Real.sqrt ((x - px) ^ 2 + (y - py) ^ 2) ≤ threshold

/-- Closest point of the start-line segment as worded in the claim:
projection parameter t = dot(position-p1, p2-p1)/L2 clamped to [0, 1]. -/
noncomputable def closest_point_on_segment (p1 p2 position : ℝ × ℝ) : ℝ × ℝ :=
  let t := min 1 (max 0
    (((position.1 - p1.1) * (p2.1 - p1.1) + (position.2 - p1.2) * (p2.2 - p1.2)) /
      ((p2.1 - p1.1) ^ 2 + (p2.2 - p1.2) ^ 2)))
  (p1.1 + t * (p2.1 - p1.1), p1.2 + t * (p2.2 - p1.2))

open Classical in
/-- Specification-side restatement of the claim for `is_on_start_line`:
true iff the Euclidean distance from the position to the closest point of
the segment is at most the threshold, falling back to the distance to the
first endpoint when the squared segment length is 0. -/
noncomputable def is_on_start_line_spec (p1 p2 position : ℝ × ℝ) (threshold : ℝ) : Prop :=
  if (p2.1 - p1.1) ^ 2 + (p2.2 - p1.2) ^ 2 = 0 then
    point_distance position p1 ≤ threshold
  else
    point_distance position (closest_point_on_segment p1 p2 position) ≤ threshold

open Classical in
/-- Loop of `Track.get_checkpoint_index`: linear scan carrying the index i,
the current minimum distance (none models the initial float(inf)) and the
best index so far (initially 0), updating on a strict `<` comparison. -/
noncomputable def gci_aux (position : ℝ × ℝ) :
    List (ℝ × ℝ) → ℕ → Option ℝ → ℕ → ℕ
  | [], _, _, nearest_idx => nearest_idx
  | checkpoint :: rest, i, min_distance, nearest_idx =>
    let d := point_distance position checkpoint
    match min_distance with
    | none => gci_aux position rest (i + 1) (some d) i
    | some m =>
        if d < m then gci_aux position rest (i + 1) (some d) i
        else gci_aux position rest (i + 1) (some m) nearest_idx

/-- Embedding of `Track.get_checkpoint_index`, parameterized by the
checkpoint list (`self.checkpoints` in the source). -/
noncomputable def get_checkpoint_index (checkpoints : List (ℝ × ℝ)) (position : ℝ × ℝ) : ℕ :=
  gci_aux position checkpoints 0 none 0

/-- Characterization of the scan: starting from a current minimum m and
best index b, either no list element beats m and the best index is kept,
or the result is i + k for the first k whose distance is both below m and
strictly below every earlier element, and minimal overall. -/
theorem gci_aux_spec (position : ℝ × ℝ) (l : List (ℝ × ℝ)) :
    ∀ (i : ℕ) (m : ℝ) (b : ℕ),
      (gci_aux position l i (some m) b = b ∧
        ∀ k (hk : k < l.length), m ≤ point_distance position (l.get ⟨k, hk⟩)) ∨
      (∃ k, ∃ hk : k < l.length,
        gci_aux position l i (some m) b = i + k ∧
        point_distance position (l.get ⟨k, hk⟩) < m ∧
        (∀ j (hj : j < k),
          point_distance position (l.get ⟨k, hk⟩) <
            point_distance position (l.get ⟨j, lt_trans hj hk⟩)) ∧
        (∀ j (hj : j < l.length),
          point_distance position (l.get ⟨k, hk⟩) ≤ point_distance position (l.get ⟨j, hj⟩))) := by
  induction l with
  | nil =>
      intro i m b
      exact Or.inl ⟨rfl, fun k hk => absurd hk (Nat.not_lt_zero k)⟩
  | cons cp rest ih =>
      intro i m b
      by_cases hd : point_distance position cp < m
      · have hstep : gci_aux position (cp :: rest) i (some m) b =
            gci_aux position rest (i + 1) (some (point_distance position cp)) i := by
          simp only [gci_aux, if_pos hd]
        rcases ih (i + 1) (point_distance position cp) i with ⟨hres, hall⟩ |
          ⟨k, hk, hres, hlt, hbefore, hmin⟩
        · refine Or.inr ⟨0, Nat.succ_pos rest.length, ?_, ?_, ?_, ?_⟩
          · rw [hstep, hres, Nat.add_zero]
          · exact hd
          · intro j hj
            exact absurd hj (Nat.not_lt_zero j)
          · intro j hj
            match j, hj with
            | 0, _ => exact le_rfl
            | j + 1, hj => exact hall j (Nat.lt_of_succ_lt_succ hj)
        · refine Or.inr ⟨k + 1, Nat.succ_lt_succ hk, ?_, ?_, ?_, ?_⟩
          · rw [hstep, hres]
            omega
          · exact lt_trans hlt hd
          · intro j hj
            match j, hj with
            | 0, _ => exact hlt
            | j + 1, hj => exact hbefore j (Nat.lt_of_succ_lt_succ hj)
          · intro j hj
            match j, hj with
            | 0, _ => exact le_of_lt hlt
            | j + 1, hj => exact hmin j (Nat.lt_of_succ_lt_succ hj)
      · have hstep : gci_aux position (cp :: rest) i (some m) b =
            gci_aux position rest (i + 1) (some m) b := by
          simp only [gci_aux, if_neg hd]
        rcases ih (i + 1) m b with ⟨hres, hall⟩ | ⟨k, hk, hres, hlt, hbefore, hmin⟩
        · refine Or.inl ⟨by rw [hstep, hres], ?_⟩
          intro k hk
          match k, hk with
          | 0, _ => exact not_lt.mp hd
          | k + 1, hk => exact hall k (Nat.lt_of_succ_lt_succ hk)
        · refine Or.inr ⟨k + 1, Nat.succ_lt_succ hk, ?_, ?_, ?_, ?_⟩
          · rw [hstep, hres]
            omega
          · exact hlt
          · intro j hj
            match j, hj with
            | 0, _ => exact lt_of_lt_of_le hlt (not_lt.mp hd)
            | j + 1, hj => exact hbefore j (Nat.lt_of_succ_lt_succ hj)
          · intro j hj
            match j, hj with
            | 0, _ => exact le_of_lt (lt_of_lt_of_le hlt (not_lt.mp hd))
            | j + 1, hj => exact hmin j (Nat.lt_of_succ_lt_succ hj)

/-- Distance from a point to itself is 0. -/
theorem point_distance_self (p : ℝ × ℝ) : point_distance p p = 0 := by
  simp [point_distance]

end Track

/-- C8: `is_on_start_line` returns true iff the Euclidean distance from
the position to the closest point of the start-line segment (clamped
projection) is at most the threshold, with the degenerate-segment
fallback to the distance to startLine[0] when the squared length is 0. -/
theorem is_on_start_line_correct (p1 p2 position : ℝ × ℝ) (threshold : ℝ) :
    Track.is_on_start_line (some (p1, p2)) position threshold ↔
      Track.is_on_start_line_spec p1 p2 position threshold := by
  simp only [Track.is_on_start_line, Track.is_on_start_line_spec, Track.closest_point_on_segment,
    Track.point_distance]
  have hsq : ∀ a b : ℝ, a ^ 2 + b ^ 2 = a * a + b * b := fun a b => by ring
  rw [max_min_distrib_left, max_eq_right zero_le_one]
  split_ifs with h
  · rw [hsq (position.1 - p1.1) (position.2 - p1.2)]
  · rw [hsq]

/-- C9: `get_checkpoint_index` returns 0 on an empty checkpoint list; on a
non-empty list it returns an in-range index achieving the minimum
Euclidean distance, strictly smaller than the distance at every lower
index (first minimum wins under the strict `<` scan); in particular it
returns 0 when the position equals checkpoints[0]. -/
theorem get_checkpoint_index_correct (checkpoints : List (ℝ × ℝ)) (position : ℝ × ℝ) :
    (checkpoints = [] → Track.get_checkpoint_index checkpoints position = 0) ∧
    (checkpoints ≠ [] →
      ∃ hr : Track.get_checkpoint_index checkpoints position < checkpoints.length,
        (∀ j (hj : j < checkpoints.length),
          Track.point_distance position
              (checkpoints.get ⟨Track.get_checkpoint_index checkpoints position, hr⟩) ≤
            Track.point_distance position (checkpoints.get ⟨j, hj⟩)) ∧
        (∀ j (hj : j < Track.get_checkpoint_index checkpoints position),
          Track.point_distance position
              (checkpoints.get ⟨Track.get_checkpoint_index checkpoints position, hr⟩) <
            Track.point_distance position (checkpoints.get ⟨j, lt_trans hj hr⟩))) ∧
    (∀ h0 : 0 < checkpoints.length,
      position = checkpoints.get ⟨0, h0⟩ → Track.get_checkpoint_index checkpoints position = 0) := by
  match checkpoints with
  | [] =>
      refine ⟨fun _ => rfl, fun hne => absurd rfl hne, fun h0 _ => absurd h0 (by norm_num)⟩
  | cp :: rest =>
      have hstep : Track.get_checkpoint_index (cp :: rest) position =
          Track.gci_aux position rest 1 (some (Track.point_distance position cp)) 0 := by
        simp only [Track.get_checkpoint_index, Track.gci_aux]
      rcases Track.gci_aux_spec position rest 1 (Track.point_distance position cp) 0 with
        ⟨hres, hall⟩ | ⟨k, hk, hres, hlt, hbefore, hmin⟩
      · have hr0 : Track.get_checkpoint_index (cp :: rest) position = 0 := by rw [hstep, hres]
        refine ⟨fun hempty => by simp at hempty, fun hne => ?_, fun h0 hpos => hr0⟩
        simp only [hr0]
        refine ⟨Nat.succ_pos rest.length, ?_, ?_⟩
        · intro j hj
          match j, hj with
          | 0, _ => exact le_rfl
          | j + 1, hj => exact hall j (Nat.lt_of_succ_lt_succ hj)
        · intro j hj
          exact absurd hj (Nat.not_lt_zero j)
      · have hrk : Track.get_checkpoint_index (cp :: rest) position = k + 1 := by
          rw [hstep, hres]
          omega
        refine ⟨fun hempty => by simp at hempty, fun hne => ?_, fun h0 hpos => ?_⟩
        · simp only [hrk]
          refine ⟨Nat.succ_lt_succ hk, ?_, ?_⟩
          · intro j hj
            match j, hj with
            | 0, _ => exact le_of_lt hlt
            | j + 1, hj => exact hmin j (Nat.lt_of_succ_lt_succ hj)
          · intro j hj
            match j, hj with
            | 0, _ => exact hlt
            | j + 1, hj => exact hbefore j (Nat.lt_of_succ_lt_succ hj)
        · exfalso
          have hzero : Track.point_distance position cp = 0 := by
            have : (cp :: rest).get ⟨0, h0⟩ = cp := rfl
            rw [hpos, this, Track.point_distance_self]
          rw [hzero] at hlt
          exact absurd hlt (not_lt.mpr (Real.sqrt_nonneg _))

/-- Witness for C9 on the two-point checkpoint list [(0,0), (3,4)] with the
position equal to the first checkpoint. -/
theorem get_checkpoint_index_witness :
    (([((0:ℝ), (0:ℝ)), ((3:ℝ), (4:ℝ))] : List (ℝ × ℝ)) ≠ []) ∧
    0 < ([((0:ℝ), (0:ℝ)), ((3:ℝ), (4:ℝ))] : List (ℝ × ℝ)).length ∧
    Track.get_checkpoint_index [((0:ℝ), (0:ℝ)), ((3:ℝ), (4:ℝ))] ((0:ℝ), (0:ℝ)) = 0 := by
  refine ⟨by simp, by simp, ?_⟩
  exact (get_checkpoint_index_correct [((0:ℝ), (0:ℝ)), ((3:ℝ), (4:ℝ))] ((0:ℝ), (0:ℝ))).2.2
    (by simp) rfl
